import Mathlib

/-!
# Verification of the t-irc wire-protocol core

Shallow embedding of the `ircparse` and `ircstream` crates:

* `src/ircparse/src/wire.rs`   — nom-4-based tokenizer with regex sub-matchers
* `src/ircparse/src/data.rs`   — data model, serializer (`write_to`), `into_owned`
* `src/ircparse/src/command.rs`— raw ↔ semantic command mapping
* `src/ircstream/src/lib.rs`   — `IrcCodec::decode` stream framer

Bytes are modelled as `List Nat`.  The three `regex` crate patterns used by the
tokenizer are embedded as deterministic greedy matchers; for each of these
patterns leftmost-first backtracking search coincides with pure greedy matching
(every character class involved excludes the delimiter that follows it, so
giving back characters can never enable a later literal to match), which the
comments at each matcher spell out.

nom 4 streaming semantics embedded in `PResult`:
`ok value rest` (`Ok`), `err` (`Err::Error`; the grammar has no cut points, so
`Err::Failure` is unreachable), `incomplete` (`Err::Incomplete`).
`opt!` turns `Error` into `None` and passes `Incomplete` through; `alt!` tries
the next branch only on `Error`; `tag!` on a too-short matching prefix is
`Incomplete`; `take_till!`/`take_until!` are `Incomplete` when no stop byte /
substring is found.
-/

namespace TIrc

abbrev Bytes := List Nat

/-- Interpret an ASCII string literal as wire bytes. -/
def str (s : String) : Bytes := s.data.map Char.toNat

/-! ## Byte classes of the three regexes -/

/-- `[A-Za-z]` -/
def isLetter (c : Nat) : Bool := decide ((65 ≤ c ∧ c ≤ 90) ∨ (97 ≤ c ∧ c ≤ 122))

/-- `[0-9]` -/
def isDigit (c : Nat) : Bool := decide (48 ≤ c ∧ c ≤ 57)

/-- tag key name class `[A-Za-z0-9\-]` -/
def isTagNameByte (c : Nat) : Bool := isLetter c || isDigit c || decide (c = 45)

/-- tag key vendor class `[A-Za-z0-9\-.]` -/
def isTagVendorByte (c : Nat) : Bool := isTagNameByte c || decide (c = 46)

/-- tag value class `[^\x00\r\n; ]` -/
def isTagValueByte (c : Nat) : Bool :=
  decide (c ≠ 0 ∧ c ≠ 13 ∧ c ≠ 10 ∧ c ≠ 59 ∧ c ≠ 32)

/-- nickname class `[^!@ ]` -/
def isNickByte (c : Nat) : Bool := decide (c ≠ 33 ∧ c ≠ 64 ∧ c ≠ 32)

/-- user class `[^@ ]` -/
def isUserByte (c : Nat) : Bool := decide (c ≠ 64 ∧ c ≠ 32)

/-- host class `[^ ]` -/
def isHostByte (c : Nat) : Bool := decide (c ≠ 32)

/-- command letter class `[A-Za-z_\-]` -/
def isCmdLetter (c : Nat) : Bool := isLetter c || decide (c = 95) || decide (c = 45)

/-- complement of the middle-parameter stop set (space, CR, LF) -/
def notArgStop (c : Nat) : Bool := decide (c ≠ 32 ∧ c ≠ 13 ∧ c ≠ 10)

/-! ## Data model (`data.rs`, `command.rs`)

`Cow<'a, [u8]>` view/owned byte strings are both modelled as `Bytes`; the
borrowed/owned distinction is representational only, so the explicit
`into_owned` deep copies below are content-preserving copies. -/

/-- `data.rs` `Tag` -/
structure Tag where
  key : Bytes
  value : Option Bytes
deriving DecidableEq

/-- `data.rs` `Prefix` (named `Pfx` here). -/
structure Pfx where
  nickname : Bytes
  user : Option Bytes
  host : Option Bytes
deriving DecidableEq

/-- `data.rs` `RawCommandAndArgs` -/
structure Raw where
  command : Bytes
  args : List Bytes
  rest : Option Bytes
deriving DecidableEq

/-- `command.rs` `Command` -/
inductive Command where
  | privmsg (channel : Bytes) (message : Bytes)
  | unknown (command : Bytes) (args : List Bytes) (rest : Option Bytes)
deriving DecidableEq

/-- `data.rs` `Message` (the aggregate; its `prefix` field is named `pfx`). -/
structure Message where
  tags : List Tag
  pfx : Option Pfx
  command : Command
deriving DecidableEq

def pmBytes : Bytes := str "PRIVMSG"

/-- `command.rs` `From<RawCommandAndArgs> for Command`:
match on `(command, rest, args.len())`; `args.pop()` on a one-element vector
yields its only element. -/
def commandFromRaw (r : Raw) : Command :=
  match r with
  | ⟨c, [a], some rest⟩ =>
    if c = pmBytes then .privmsg a rest else .unknown c [a] (some rest)
  | ⟨c, args, rest⟩ => .unknown c args rest

/-- `command.rs` `Into<RawCommandAndArgs> for Command` -/
def commandToRaw : Command → Raw
  | .privmsg ch msg => ⟨pmBytes, [ch], some msg⟩
  | .unknown c a r => ⟨c, a, r⟩

/-! ## `into_owned` (deep copies; content-preserving in this embedding) -/

def Tag.into_owned (t : Tag) : Tag :=
  { key := t.key, value := t.value.map (fun v => v) }

def Pfx.into_owned (p : Pfx) : Pfx :=
  { nickname := p.nickname, user := p.user.map (fun u => u),
    host := p.host.map (fun h => h) }

def Command.into_owned : Command → Command
  | .privmsg ch msg => .privmsg ch msg
  | .unknown c a r => .unknown c (a.map (fun x => x)) (r.map (fun x => x))

def Message.into_owned (m : Message) : Message :=
  { tags := m.tags.map Tag.into_owned,
    pfx := m.pfx.map Pfx.into_owned,
    command := m.command.into_owned }

/-! ## Serializers (`write_to` with an always-succeeding sink)

A sink whose writes always succeed makes `write_to` a pure byte producer,
except for `Prefix::write_to`, whose `(Some(user), None)` arm is
`unimplemented!()` — a panic, modelled as `none`. -/

/-- `Tag::write_to`: key, then `=` + value if the value is present. -/
def Tag.write (t : Tag) : Bytes :=
  t.key ++ (match t.value with | some v => 61 :: v | none => [])

/-- `Prefix::write_to`; the `(Some(_), None)` arm panics (`none`). -/
def Pfx.write (p : Pfx) : Option Bytes :=
  match p.user, p.host with
  | none, none => some (58 :: p.nickname)
  | none, some h => some (58 :: p.nickname ++ 64 :: h)
  | some u, some h => some (58 :: p.nickname ++ 33 :: u ++ 64 :: h)
  | some _, none => none

/-- argument serialization loop of `RawCommandAndArgs::write_to`:
one space before each argument. -/
def argsBytes : List Bytes → Bytes
  | [] => []
  | a :: as_ => 32 :: a ++ argsBytes as_

/-- `RawCommandAndArgs::write_to` -/
def Raw.write (r : Raw) : Bytes :=
  r.command ++ argsBytes r.args ++
    (match r.rest with | some rest => 32 :: 58 :: rest | none => [])

/-- tag-list serialization loop of `Message::write_to` after the first tag:
`;` before each further tag. -/
def tagsTail : List Tag → Bytes
  | [] => []
  | t :: ts => 59 :: Tag.write t ++ tagsTail ts

/-- the tag section of `Message::write_to`: nothing if there are no tags,
otherwise `@`, the `;`-joined tags, one space. -/
def tagsSection : List Tag → Bytes
  | [] => []
  | t :: ts => 64 :: Tag.write t ++ tagsTail ts ++ [32]

/-- `Message::write_to`; `none` iff the prefix write panics. -/
def Message.write (m : Message) : Option Bytes :=
  match m.pfx with
  | none =>
    some (tagsSection m.tags ++ Raw.write (commandToRaw m.command) ++ [13, 10])
  | some p =>
    (Pfx.write p).map (fun pb =>
      tagsSection m.tags ++ pb ++ 32 :: Raw.write (commandToRaw m.command) ++ [13, 10])

/-! ## Tokenizer (`wire.rs`) -/

/-- nom result classification (see header). -/
inductive PResult (α : Type) where
  | ok (value : α) (rest : Bytes)
  | err
  | incomplete
deriving DecidableEq

/-- `char!(c)` -/
def charP (c : Nat) (i : Bytes) : PResult Unit :=
  match i with
  | [] => .incomplete
  | x :: xs => if x = c then .ok () xs else .err

/-- `tag!(t)`: compare the overlap; mismatch is `Error`, a proper matching
prefix of `t` is `Incomplete`. -/
def tagP (t : Bytes) (i : Bytes) : PResult Unit :=
  if t.length ≤ i.length then
    if i.take t.length = t then .ok () (i.drop t.length) else .err
  else
    if i = t.take i.length then .incomplete else .err

/-- Key part of `TAG_REGEX`
`^(?P<key>(?:[A-Za-z0-9\-.]+/)?[A-Za-z0-9\-]+)` as a greedy matcher.
The vendor run `[A-Za-z0-9\-.]+` excludes `/`, so the only place the literal
`/` can match is right after the maximal vendor run; if the name run after `/`
is empty the engine drops the optional vendor group and retries the bare name
run at the start, exactly as leftmost-first backtracking does. -/
def tagKeyMatch (i : Bytes) : Option Bytes :=
  let xs := i.takeWhile isTagVendorByte
  if xs.length ≠ 0 ∧ (i.drop xs.length).head? = some 47 ∧
      ((i.drop (xs.length + 1)).takeWhile isTagNameByte).length ≠ 0 then
    some (xs ++ 47 :: (i.drop (xs.length + 1)).takeWhile isTagNameByte)
  else
    let ys := i.takeWhile isTagNameByte
    if ys.length = 0 then none else some ys

/-- `wire.rs` `fn tag`: anchored `TAG_REGEX` capture; no match is a nom
`Error`; the matched key is always a prefix of the input, so the bytes left
over are `i.drop key.length` (the regex `full_match.end()`). -/
def tagFn (i : Bytes) : PResult Tag :=
  match tagKeyMatch i with
  | none => .err
  | some key =>
    let r1 := i.drop key.length
    if r1.head? = some 61 then
      let v := (r1.drop 1).takeWhile isTagValueByte
      .ok ⟨key, some v⟩ ((r1.drop 1).drop v.length)
    else .ok ⟨key, none⟩ r1

/-- `wire.rs` `fn prefix`: anchored `PREFIX_REGEX`
`^(?P<nickname>[^!@ ]+)(?:(?:!(?P<user>[^@ ]+))?@(?P<host>[^ ]+))?` as a
greedy matcher.  Shortening the greedy nickname run leaves a `[^!@ ]` byte
next, which can never be the `!` or `@` the optional group needs, and
shortening the user run leaves a `[^@ ]` byte next, never the needed `@`; so
backtracking never yields a different match and the optional group matches
iff the greedy attempt shown here succeeds. -/
def pfxFn (i : Bytes) : PResult Pfx :=
  let n := i.takeWhile isNickByte
  if n.length = 0 then .err
  else
    let r1 := i.drop n.length
    if r1.head? = some 33 then
      let u := (r1.drop 1).takeWhile isUserByte
      if u.length ≠ 0 ∧ (r1.drop (1 + u.length)).head? = some 64 then
        let r3 := r1.drop (2 + u.length)
        let h := r3.takeWhile isHostByte
        if h.length ≠ 0 then .ok ⟨n, some u, some h⟩ (r3.drop h.length)
        else .ok ⟨n, none, none⟩ r1
      else .ok ⟨n, none, none⟩ r1
    else if r1.head? = some 64 then
      let h := (r1.drop 1).takeWhile isHostByte
      if h.length ≠ 0 then .ok ⟨n, none, some h⟩ ((r1.drop 1).drop h.length)
      else .ok ⟨n, none, none⟩ r1
    else .ok ⟨n, none, none⟩ r1

/-- least index at which three consecutive decimal digits start -/
def find3Digits : Bytes → Option Nat
  | [] => none
  | c :: rest =>
    if isDigit c ∧ (rest.take 2).all isDigit ∧ 2 ≤ rest.length then some 0
    else (find3Digits rest).map (· + 1)

/-- `wire.rs` `fn command`: `COMMAND_REGEX.find` with pattern
`^[A-Za-z_\-]+|[0-9]{3}` — NOTE the `^` anchors only the first alternative,
so when no letter run starts the input, the second alternative matches three
consecutive digits found **anywhere**; `left = &input[command.end()..]`
discards any bytes before that match. -/
def commandFn (i : Bytes) : PResult Bytes :=
  let run := i.takeWhile isCmdLetter
  if run.length ≠ 0 then .ok run (i.drop run.length)
  else
    match find3Digits i with
    | some j => .ok ((i.drop j).take 3) (i.drop (j + 3))
    | none => .err

/-- loop of `separated_nonempty_list!(char!(';'), tag)` after the first
element: separator then element; an `Error` from either ends the list without
consuming the separator; `Incomplete` propagates.  `fuel` only bounds the
recursion: every iteration consumes at least two bytes (the `;` and a
non-empty key), so any `fuel ≥` input length makes the `0` case unreachable. -/
def tagsListAux : Nat → Bytes → List Tag → PResult (List Tag)
  | 0, _, _ => .err
  | fuel + 1, i, acc =>
    match charP 59 i with
    | .incomplete => .incomplete
    | .err => .ok acc i
    | .ok _ i2 =>
      match tagFn i2 with
      | .err => .ok acc i
      | .incomplete => .incomplete
      | .ok t i3 => tagsListAux fuel i3 (acc ++ [t])

/-- `named!(tags<Vec<Tag>>, separated_nonempty_list!(char!(';'), tag))` -/
def tagsList (i : Bytes) : PResult (List Tag) :=
  match tagFn i with
  | .err => .err
  | .incomplete => .incomplete
  | .ok t i2 => tagsListAux i2.length i2 [t]

/-- `opt!(delimited!(char!('@'), tags, char!(' ')))`:
an `Error` anywhere inside restores the original input and yields `None`;
`Incomplete` propagates. -/
def optTags (i : Bytes) : PResult (Option (List Tag)) :=
  match charP 64 i with
  | .incomplete => .incomplete
  | .err => .ok none i
  | .ok _ i1 =>
    match tagsList i1 with
    | .err => .ok none i
    | .incomplete => .incomplete
    | .ok ts i2 =>
      match charP 32 i2 with
      | .err => .ok none i
      | .incomplete => .incomplete
      | .ok _ i3 => .ok (some ts) i3

/-- `opt!(delimited!(char!(':'), prefix, char!(' ')))` -/
def optPfx (i : Bytes) : PResult (Option Pfx) :=
  match charP 58 i with
  | .incomplete => .incomplete
  | .err => .ok none i
  | .ok _ i1 =>
    match pfxFn i1 with
    | .err => .ok none i
    | .incomplete => .incomplete
    | .ok p i2 =>
      match charP 32 i2 with
      | .err => .ok none i
      | .incomplete => .incomplete
      | .ok _ i3 => .ok (some p) i3

/-- `peek!(alt!(tag!(" :") | tag!("\r\n")))`: `alt!` falls through to the next
branch only on `Error`; `peek!` restores the input on success. -/
def peekStop (i : Bytes) : PResult Unit :=
  match tagP [32, 58] i with
  | .ok _ _ => .ok () i
  | .incomplete => .incomplete
  | .err =>
    match tagP [13, 10] i with
    | .ok _ _ => .ok () i
    | .incomplete => .incomplete
    | .err => .err

/-- `take_till!(space | CR | LF)`: `Incomplete` when no stop byte has arrived
yet (streaming semantics). -/
def takeTillStop (i : Bytes) : PResult Bytes :=
  let a := i.takeWhile notArgStop
  if a.length = i.length then .incomplete else .ok a (i.drop a.length)

/-- loop of `many_till!(preceded!(char!(' '), take_till!(...)), peek!(alt!(...)))`:
the end parser is tried first; on its `Error` the content parser runs, and a
content `Error` fails the whole loop; `Incomplete` from either side
propagates (streaming semantics).  `fuel` only bounds the recursion: every
iteration consumes at least the leading space, so any `fuel ≥` input length
makes the `0` case unreachable. -/
def argsLoopAux : Nat → Bytes → List Bytes → PResult (List Bytes)
  | 0, _, _ => .err
  | fuel + 1, i, acc =>
    match peekStop i with
    | .ok _ _ => .ok acc i
    | .incomplete => .incomplete
    | .err =>
      match charP 32 i with
      | .incomplete => .incomplete
      | .err => .err
      | .ok _ i1 =>
        match takeTillStop i1 with
        | .incomplete => .incomplete
        | .err => .err
        | .ok a i2 => argsLoopAux fuel i2 (acc ++ [a])

def argsLoop (i : Bytes) : PResult (List Bytes) := argsLoopAux (i.length + 1) i []

/-- least index at which the two-byte substring CR LF starts -/
def findCRLF : Bytes → Option Nat
  | [] => none
  | c :: rest =>
    if c = 13 ∧ rest.head? = some 10 then some 0
    else (findCRLF rest).map (· + 1)

/-- `take_until!("\r\n")`: `Incomplete` until the substring appears. -/
def takeUntilCRLF (i : Bytes) : PResult Bytes :=
  match findCRLF i with
  | none => .incomplete
  | some j => .ok (i.take j) (i.drop j)

/-- `opt!(preceded!(tag!(" :"), take_until!("\r\n")))` -/
def optRest (i : Bytes) : PResult (Option Bytes) :=
  match tagP [32, 58] i with
  | .incomplete => .incomplete
  | .err => .ok none i
  | .ok _ i1 =>
    match takeUntilCRLF i1 with
    | .incomplete => .incomplete
    | .err => .ok none i
    | .ok r i2 => .ok (some r) i2

/-- `wire.rs` `Message` (the raw shape before command mapping). -/
structure WireMessage where
  tags : List Tag
  pfx : Option Pfx
  commandAndArgs : Raw
deriving DecidableEq

/-- `named!(message<Message>, do_parse!(...))`: the full grammar chain with
final `tag!("\r\n")`; `tags.unwrap_or_else(|| vec![])`. -/
def wireParse (i : Bytes) : PResult WireMessage :=
  match optTags i with
  | .err => .err
  | .incomplete => .incomplete
  | .ok ts i1 =>
    match optPfx i1 with
    | .err => .err
    | .incomplete => .incomplete
    | .ok p i2 =>
      match commandFn i2 with
      | .err => .err
      | .incomplete => .incomplete
      | .ok cmd i3 =>
        match argsLoop i3 with
        | .err => .err
        | .incomplete => .incomplete
        | .ok args i4 =>
          match optRest i4 with
          | .err => .err
          | .incomplete => .incomplete
          | .ok rest i5 =>
            match tagP [13, 10] i5 with
            | .err => .err
            | .incomplete => .incomplete
            | .ok _ i6 => .ok ⟨ts.getD [], p, ⟨cmd, args, rest⟩⟩ i6

/-- `data.rs` `Message::parse`: wire parse then command mapping.
`ok`/`err`/`incomplete` correspond to the Rust
`Ok((msg, left))` / `Err(Some(input))` / `Err(None)`. -/
def Message.parse (i : Bytes) : PResult Message :=
  match wireParse i with
  | .ok w rest => .ok ⟨w.tags, w.pfx, commandFromRaw w.commandAndArgs⟩ rest
  | .err => .err
  | .incomplete => .incomplete

/-! ## Stream framer (`ircstream/src/lib.rs`) -/

/-- `StreamMessage` -/
inductive StreamMessage where
  | message (m : Message)
  | invalid (bytes : Bytes)
deriving DecidableEq

/-- `src.iter().position(|&b| b == b'\n')` -/
def findLF : Bytes → Option Nat
  | [] => none
  | c :: rest => if c = 10 then some 0 else (findLF rest).map (· + 1)

/-- `IrcCodec::decode`: result event (if any) and the buffer afterwards.
On success the consumed byte count is `src.len() - left.len()` and the parsed
message is promoted with `into_owned`; on `Err(None)` (incomplete) nothing
changes; on `Err(Some(_))` (invalid) everything up to and including the first
LF is split off as an `Invalid` event, or nothing changes if no LF arrived. -/
def decode (src : Bytes) : Option StreamMessage × Bytes :=
  match Message.parse src with
  | .ok m left =>
    let count := src.length - left.length
    (some (.message m.into_owned), src.drop count)
  | .incomplete => (none, src)
  | .err =>
    match findLF src with
    | some p => (some (.invalid (src.take (p + 1))), src.drop (p + 1))
    | none => (none, src)

/-! ## Grammar-level well-formedness of data-model values

These predicates transcribe, on the data-model side, exactly the character
classes the tokenizer grammar uses (spec §3); they quantify the amended
round-trip and serialization claims. -/

/-- split a byte string at its first `/` byte -/
def splitSlash : Bytes → Option (Bytes × Bytes)
  | [] => none
  | c :: rest =>
    if c = 47 then some ([], rest)
    else (splitSlash rest).map (fun p => (c :: p.1, p.2))

/-- a tag key the tag regex matches in full: either a non-empty
`[A-Za-z0-9\-]+` name, or non-empty `vendor/name` with the vendor over
`[A-Za-z0-9\-.]`. -/
def validKey (k : Bytes) : Bool :=
  match splitSlash k with
  | none => !k.isEmpty && k.all isTagNameByte
  | some (v, n) =>
    !v.isEmpty && v.all isTagVendorByte && !n.isEmpty && n.all isTagNameByte

def validTag (t : Tag) : Bool :=
  validKey t.key && (match t.value with
                     | some v => v.all isTagValueByte
                     | none => true)

def validPfx (p : Pfx) : Bool :=
  (!p.nickname.isEmpty && p.nickname.all isNickByte) &&
  (match p.user, p.host with
   | none, none => true
   | none, some h => !h.isEmpty && h.all isHostByte
   | some u, some h => (!u.isEmpty && u.all isUserByte) &&
                       (!h.isEmpty && h.all isHostByte)
   | some _, none => false)

/-- a middle parameter that survives the argument scanner: no space/CR/LF and
not introducing a trailing section (first byte not `:`). -/
def validArg (a : Bytes) : Bool := a.all notArgStop && decide (a.head? ≠ some 58)

/-- a trailing parameter without CR/LF (spec §3). -/
def validRest (r : Bytes) : Bool := r.all (fun c => decide (c ≠ 13 ∧ c ≠ 10))

/-- a command token the (intended, anchored) command regex matches in full. -/
def validCmdToken (c : Bytes) : Bool :=
  (!c.isEmpty && c.all isCmdLetter) || (decide (c.length = 3) && c.all isDigit)

/-- grammar-valid command whose raw projection parses back to itself; the
final clause excludes catch-all values shadowing the modeled PRIVMSG shape. -/
def validCommand : Command → Bool
  | .privmsg ch msg => validArg ch && validRest msg
  | .unknown c args rest =>
    validCmdToken c && args.all validArg &&
    (match rest with | some r => validRest r | none => true) &&
    !(decide (c = pmBytes) && decide (args.length = 1) && rest.isSome)

/-- all fields of the message satisfy the grammar character classes. -/
def Message.wellFormed (m : Message) : Bool :=
  m.tags.all validTag &&
  (match m.pfx with | some p => validPfx p | none => true) &&
  validCommand m.command

/-! ## Basic list lemmas -/

theorem takeWhile_append_stop {p : Nat → Bool} {xs : Bytes}
    (hx : ∀ c ∈ xs, p c = true) {y : Nat} (hy : p y = false) (ys : Bytes) :
    (xs ++ y :: ys).takeWhile p = xs := by
  induction xs with
  | nil => simp [List.takeWhile_cons, hy]
  | cons a as ih =>
    have ha : p a = true := hx a (by simp)
    simp only [List.cons_append, List.takeWhile_cons, ha, if_true]
    rw [ih (fun c hc => hx c (by simp [hc]))]

theorem eq_drop_of_suffix {l r : Bytes} (h : r <:+ l) :
    l.drop (l.length - r.length) = r := by
  obtain ⟨t, rfl⟩ := h
  have hlen : (t ++ r).length - r.length = t.length := by
    simp [List.length_append]
  rw [hlen, List.drop_left]

/-! ## Suffix facts: every parsing stage leaves a suffix of its input -/

theorem charP_suffix {c : Nat} {i r : Bytes} {v : Unit}
    (h : charP c i = .ok v r) : r <:+ i := by
  cases i with
  | nil => simp [charP] at h
  | cons x xs =>
    simp only [charP] at h
    split at h
    · cases h; exact ⟨[x], rfl⟩
    · cases h

theorem tagP_ok {t i r : Bytes} {v : Unit} (h : tagP t i = .ok v r) :
    r = i.drop t.length ∧ i.take t.length = t := by
  simp only [tagP] at h
  split at h
  · split at h
    · cases h; exact ⟨rfl, by assumption⟩
    · cases h
  · split at h <;> cases h

theorem tagP_suffix {t i r : Bytes} {v : Unit} (h : tagP t i = .ok v r) :
    r <:+ i := by
  rw [(tagP_ok h).1]; exact List.drop_suffix _ _

theorem tagFn_suffix {i r : Bytes} {t : Tag} (h : tagFn i = .ok t r) :
    r <:+ i := by
  simp only [tagFn] at h
  split at h
  · cases h
  · split at h
    · cases h
      exact ((List.drop_suffix _ _).trans (List.drop_suffix _ _)).trans
        (List.drop_suffix _ _)
    · cases h; exact List.drop_suffix _ _

theorem pfxFn_ok {i r : Bytes} {p : Pfx} (h : pfxFn i = .ok p r) :
    r <:+ i ∧ (p.user.isSome = true → p.host.isSome = true) := by
  simp only [pfxFn] at h
  split at h
  · cases h
  · split at h
    · -- next byte is `!`
      split at h
      · split at h
        · cases h
          refine ⟨(List.drop_suffix _ _).trans ((List.drop_suffix _ _).trans
            (List.drop_suffix _ _)), fun _ => rfl⟩
        · cases h
          exact ⟨List.drop_suffix _ _, fun hu => by simp at hu⟩
      · cases h
        exact ⟨List.drop_suffix _ _, fun hu => by simp at hu⟩
    · split at h
      · -- next byte is `@`
        split at h
        · cases h
          refine ⟨(List.drop_suffix _ _).trans ((List.drop_suffix _ _).trans
            (List.drop_suffix _ _)), fun hu => by simp at hu⟩
        · cases h
          exact ⟨List.drop_suffix _ _, fun hu => by simp at hu⟩
      · -- optional group absent
        cases h
        exact ⟨List.drop_suffix _ _, fun hu => by simp at hu⟩

theorem commandFn_suffix {i r c : Bytes} (h : commandFn i = .ok c r) :
    r <:+ i := by
  simp only [commandFn] at h
  split at h
  · cases h; exact List.drop_suffix _ _
  · split at h
    · cases h; exact List.drop_suffix _ _
    · cases h

theorem tagsListAux_suffix : ∀ {fuel : Nat} {i r : Bytes} {acc ts : List Tag},
    tagsListAux fuel i acc = .ok ts r → r <:+ i := by
  intro fuel
  induction fuel with
  | zero => intro i r acc ts h; simp [tagsListAux] at h
  | succ f ih =>
    intro i r acc ts h
    simp only [tagsListAux] at h
    split at h
    · cases h
    · cases h; exact List.suffix_rfl
    · rename_i hc
      split at h
      · cases h; exact List.suffix_rfl
      · cases h
      · rename_i ht
        exact ((ih h).trans (tagFn_suffix ht)).trans (charP_suffix hc)

theorem tagsList_suffix {i r : Bytes} {ts : List Tag}
    (h : tagsList i = .ok ts r) : r <:+ i := by
  simp only [tagsList] at h
  split at h
  · cases h
  · cases h
  · rename_i ht
    exact (tagsListAux_suffix h).trans (tagFn_suffix ht)

theorem optTags_suffix {i r : Bytes} {v : Option (List Tag)}
    (h : optTags i = .ok v r) : r <:+ i := by
  simp only [optTags] at h
  split at h
  · cases h
  · cases h; exact List.suffix_rfl
  · rename_i hc
    split at h
    · cases h; exact List.suffix_rfl
    · cases h
    · rename_i ht
      split at h
      · cases h; exact List.suffix_rfl
      · cases h
      · rename_i hc2
        cases h
        exact ((charP_suffix hc2).trans (tagsList_suffix ht)).trans
          (charP_suffix hc)

theorem optPfx_ok {i r : Bytes} {v : Option Pfx} (h : optPfx i = .ok v r) :
    r <:+ i ∧ (∀ p, v = some p → p.user.isSome = true → p.host.isSome = true) := by
  simp only [optPfx] at h
  split at h
  · cases h
  · cases h; exact ⟨List.suffix_rfl, by intro p hp; cases hp⟩
  · rename_i hc
    split at h
    · cases h; exact ⟨List.suffix_rfl, by intro p hp; cases hp⟩
    · cases h
    · rename_i hp
      split at h
      · cases h; exact ⟨List.suffix_rfl, by intro p hp; cases hp⟩
      · cases h
      · rename_i hc2
        cases h
        refine ⟨((charP_suffix hc2).trans (pfxFn_ok hp).1).trans
          (charP_suffix hc), ?_⟩
        intro q hq
        cases hq
        exact (pfxFn_ok hp).2

theorem takeTillStop_suffix {i r a : Bytes} (h : takeTillStop i = .ok a r) :
    r <:+ i := by
  simp only [takeTillStop] at h
  split at h
  · cases h
  · cases h; exact List.drop_suffix _ _

theorem argsLoopAux_suffix : ∀ {fuel : Nat} {i r : Bytes} {acc args : List Bytes},
    argsLoopAux fuel i acc = .ok args r → r <:+ i := by
  intro fuel
  induction fuel with
  | zero => intro i r acc args h; simp [argsLoopAux] at h
  | succ f ih =>
    intro i r acc args h
    simp only [argsLoopAux] at h
    split at h
    · cases h; exact List.suffix_rfl
    · cases h
    · split at h
      · cases h
      · cases h
      · rename_i hc
        split at h
        · cases h
        · cases h
        · rename_i ht
          exact ((ih h).trans (takeTillStop_suffix ht)).trans (charP_suffix hc)

theorem argsLoop_suffix {i r : Bytes} {args : List Bytes}
    (h : argsLoop i = .ok args r) : r <:+ i :=
  argsLoopAux_suffix h

theorem takeUntilCRLF_suffix {i r a : Bytes} (h : takeUntilCRLF i = .ok a r) :
    r <:+ i := by
  simp only [takeUntilCRLF] at h
  split at h
  · cases h
  · cases h; exact List.drop_suffix _ _

theorem optRest_suffix {i r : Bytes} {v : Option Bytes}
    (h : optRest i = .ok v r) : r <:+ i := by
  simp only [optRest] at h
  split at h
  · cases h
  · cases h; exact List.suffix_rfl
  · rename_i ht
    split at h
    · cases h
    · cases h; exact List.suffix_rfl
    · rename_i hu
      cases h
      exact ((takeUntilCRLF_suffix hu).trans (tagP_suffix ht))

/-- Everything the framer claims need about a successful wire parse: the
leftover is a suffix of the input, the input contains an LF (the consumed
terminator), and a parsed prefix never has a user without a host. -/
theorem wireParse_ok_facts {i r : Bytes} {w : WireMessage}
    (h : wireParse i = .ok w r) :
    r <:+ i ∧ 10 ∈ i ∧
      (∀ p, w.pfx = some p → p.user.isSome = true → p.host.isSome = true) := by
  simp only [wireParse] at h
  split at h
  · cases h
  · cases h
  · rename_i hts
    split at h
    · cases h
    · cases h
    · rename_i hp
      split at h
      · cases h
      · cases h
      · rename_i hcmd
        split at h
        · cases h
        · cases h
        · rename_i hargs
          split at h
          · cases h
          · cases h
          · rename_i hrest
            split at h
            · cases h
            · cases h
            · rename_i hterm
              cases h
              have s5 := optRest_suffix hrest
              have s4 := argsLoop_suffix hargs
              have s3 := commandFn_suffix hcmd
              have s2 := (optPfx_ok hp).1
              have s1 := optTags_suffix hts
              have hmem : (10 : Nat) ∈ i := by
                have htake := (tagP_ok hterm).2
                have h10 := List.mem_of_mem_take (l := _) (n := 2)
                  (show (10 : Nat) ∈ _ by rw [show ((2:Nat) = ([13,10] : Bytes).length) from rfl, htake]; simp)
                exact ((((s5.trans s4).trans s3).trans s2).trans s1).subset h10
              refine ⟨?_, hmem, ?_⟩
              · exact (((((tagP_suffix hterm).trans s5).trans s4).trans
                  s3).trans s2).trans s1
              · intro p hp'
                exact (optPfx_ok hp).2 p hp'

theorem Message.parse_ok_facts {i r : Bytes} {m : Message}
    (h : Message.parse i = .ok m r) :
    r <:+ i ∧ 10 ∈ i ∧
      (∀ p, m.pfx = some p → p.user.isSome = true → p.host.isSome = true) := by
  simp only [Message.parse] at h
  split at h
  · rename_i w r' hw
    cases h
    exact wireParse_ok_facts hw
  · cases h
  · cases h

theorem findLF_eq_none {l : Bytes} (h : 10 ∉ l) : findLF l = none := by
  induction l with
  | nil => rfl
  | cons c rest ih =>
    have hc : c ≠ 10 := fun hc => h (by simp [hc])
    simp only [findLF, hc, if_false]
    rw [ih (fun hm => h (by simp [hm]))]
    rfl

theorem tag_into_owned_id (t : Tag) : t.into_owned = t := by
  cases t with
  | mk k v => cases v <;> simp [Tag.into_owned]

theorem pfx_into_owned_id (p : Pfx) : p.into_owned = p := by
  cases p with
  | mk n u h => cases u <;> cases h <;> simp [Pfx.into_owned]

theorem command_into_owned_id (c : Command) : c.into_owned = c := by
  cases c with
  | privmsg ch msg => rfl
  | unknown c a r =>
    cases r <;> simp [Command.into_owned, List.map_id]

theorem proper_prefix_no_lf {L body b s : Bytes} (hL : L = body ++ [10])
    (hbody : (10 : Nat) ∉ body) (hbs : L = b ++ s) (hs : s ≠ []) :
    (10 : Nat) ∉ b := by
  rcases s.eq_nil_or_concat with rfl | ⟨s', a, rfl⟩
  · exact absurd rfl hs
  · have h2 : (b ++ s') ++ [a] = body ++ [10] := by
      rw [List.append_assoc, ← List.concat_eq_append, ← hbs, hL]
    have hsplit := List.append_inj' h2 rfl
    intro hmem
    exact hbody (hsplit.1 ▸ List.mem_append_left s' hmem)

theorem into_owned_id (m : Message) : m.into_owned = m := by
  cases m with
  | mk tags pfx cmd =>
    have h1 : tags.map Tag.into_owned = tags := by
      induction tags with
      | nil => rfl
      | cons t ts ih => simp [tag_into_owned_id t, ih]
    have h2 : pfx.map Pfx.into_owned = pfx := by
      cases pfx with
      | none => rfl
      | some p => simp [pfx_into_owned_id p]
    simp [Message.into_owned, h1, h2, command_into_owned_id]

theorem pfx_write_isSome (p : Pfx)
    (hp : p.user.isSome = true → p.host.isSome = true) :
    (Pfx.write p).isSome = true := by
  cases p with
  | mk n u h =>
    cases u with
    | none => cases h <;> simp [Pfx.write]
    | some u' =>
      cases h with
      | some h' => simp [Pfx.write]
      | none => simp at hp

/-! ## Round-trip stage lemmas

Each lemma runs one grammar stage over the bytes the serializer emits for a
well-formed field, followed by an arbitrary continuation, and shows the stage
recovers exactly that field. -/

theorem drop_cons_append (v : Bytes) (c : Nat) (w : Bytes) :
    (v ++ c :: w).drop (v.length + 1) = w := by
  induction v with
  | nil => simp
  | cons x xs ih => simp [ih]

theorem splitSlash_some : ∀ {k v n : Bytes}, splitSlash k = some (v, n) →
    k = v ++ 47 :: n := by
  intro k
  induction k with
  | nil => intro v n h; simp [splitSlash] at h
  | cons c rest ih =>
    intro v n h
    simp only [splitSlash] at h
    split at h
    · rename_i hc
      subst hc
      cases h
      simp
    · rename_i hc
      cases hsp : splitSlash rest with
      | none => rw [hsp] at h; simp at h
      | some p =>
        obtain ⟨v', n'⟩ := p
        rw [hsp] at h
        simp only [Option.map_some', Option.some_inj] at h
        cases h
        simp [ih hsp]

theorem name_vendor {c : Nat} (h : isTagNameByte c = true) :
    isTagVendorByte c = true := by
  rw [isTagVendorByte, h]; rfl

theorem not_vendor_not_name {c : Nat} (h : isTagVendorByte c = false) :
    isTagNameByte c = false := by
  by_contra hn
  rw [Bool.not_eq_false] at hn
  rw [name_vendor hn] at h
  cases h

theorem tagKeyMatch_valid {k : Bytes} (hk : validKey k = true) {d : Nat}
    (hvend : isTagVendorByte d = false) (h47 : d ≠ 47) (r : Bytes) :
    tagKeyMatch (k ++ d :: r) = some k := by
  have hname := not_vendor_not_name hvend
  unfold validKey at hk
  cases hsp : splitSlash k with
  | none =>
    rw [hsp, Bool.and_eq_true] at hk
    obtain ⟨hne, hall⟩ := hk
    have hallk : ∀ c ∈ k, isTagNameByte c = true := List.all_eq_true.mp hall
    have hvendk : ∀ c ∈ k, isTagVendorByte c = true :=
      fun c hc => name_vendor (hallk c hc)
    have hxs : (k ++ d :: r).takeWhile isTagVendorByte = k :=
      takeWhile_append_stop hvendk hvend r
    have hys : (k ++ d :: r).takeWhile isTagNameByte = k :=
      takeWhile_append_stop hallk hname r
    have hkne : k ≠ [] := by simpa using hne
    simp only [tagKeyMatch, hxs, hys, List.drop_left]
    rw [if_neg, if_neg]
    · simpa [List.length_eq_zero] using hkne
    · rintro ⟨-, hhead, -⟩
      simp only [List.head?_cons, Option.some_inj] at hhead
      exact h47 hhead
  | some vn =>
    obtain ⟨v, n⟩ := vn
    rw [hsp] at hk
    have hkvn : k = v ++ 47 :: n := splitSlash_some hsp
    subst hkvn
    simp only [Bool.and_eq_true] at hk
    obtain ⟨⟨⟨hvne, hvall⟩, hnne⟩, hnall⟩ := hk
    have hv : ∀ c ∈ v, isTagVendorByte c = true := List.all_eq_true.mp hvall
    have hn : ∀ c ∈ n, isTagNameByte c = true := List.all_eq_true.mp hnall
    have hshape : (v ++ 47 :: n) ++ d :: r = v ++ 47 :: (n ++ d :: r) := by
      simp
    rw [hshape]
    have hxs : (v ++ 47 :: (n ++ d :: r)).takeWhile isTagVendorByte = v :=
      takeWhile_append_stop hv (by decide) _
    have hys : (n ++ d :: r).takeWhile isTagNameByte = n :=
      takeWhile_append_stop hn hname r
    have hd1 : (v ++ 47 :: (n ++ d :: r)).drop v.length = 47 :: (n ++ d :: r) :=
      List.drop_left v _
    have hd2 : (v ++ 47 :: (n ++ d :: r)).drop (v.length + 1) = n ++ d :: r :=
      drop_cons_append v 47 _
    simp only [tagKeyMatch, hxs, hd1, hd2, hys, List.head?_cons]
    rw [if_pos]
    · refine ⟨by simpa [List.length_eq_zero] using hvne, by simp,
        by simpa [List.length_eq_zero] using hnne⟩

theorem tagFn_valid {t : Tag} (ht : validTag t = true) {d : Nat}
    (hd : d = 59 ∨ d = 32) (r : Bytes) :
    tagFn (Tag.write t ++ d :: r) = .ok t (d :: r) := by
  obtain ⟨k, v⟩ := t
  simp only [validTag, Bool.and_eq_true] at ht
  obtain ⟨hkey, hval⟩ := ht
  have hvend : isTagVendorByte d = false := by
    rcases hd with rfl | rfl <;> decide
  have h47 : d ≠ 47 := by rcases hd with rfl | rfl <;> decide
  have h61 : d ≠ 61 := by rcases hd with rfl | rfl <;> decide
  cases v with
  | none =>
    have hw : Tag.write ⟨k, none⟩ = k := by simp [Tag.write]
    rw [hw]
    simp only [tagFn, tagKeyMatch_valid hkey hvend h47 r, List.drop_left,
      List.head?_cons]
    rw [if_neg (by simpa using h61)]
  | some vv =>
    have hw : Tag.write ⟨k, some vv⟩ ++ d :: r = k ++ 61 :: (vv ++ d :: r) := by
      simp [Tag.write]
    rw [hw]
    have hvv : ∀ c ∈ vv, isTagValueByte c = true := List.all_eq_true.mp hval
    have hstop : isTagValueByte d = false := by
      rcases hd with rfl | rfl <;> decide
    have hkm := tagKeyMatch_valid hkey
      (show isTagVendorByte 61 = false by decide)
      (show (61 : Nat) ≠ 47 by decide) (vv ++ d :: r)
    have htw : (vv ++ d :: r).takeWhile isTagValueByte = vv :=
      takeWhile_append_stop hvv hstop r
    simp only [tagFn, hkm, List.drop_left, List.head?_cons, List.drop_succ_cons,
      List.drop_zero, htw]
    simp

/-- running `tagFn` at a tag boundary of the serialized tag list: the next
byte is `;` (more tags) or the closing space. -/
theorem tagFn_at_boundary {t : Tag} (ht : validTag t = true) (ts : List Tag)
    (r : Bytes) :
    tagFn (Tag.write t ++ (tagsTail ts ++ 32 :: r)) =
      .ok t (tagsTail ts ++ 32 :: r) := by
  cases ts with
  | nil => simpa using tagFn_valid ht (Or.inr rfl) r
  | cons u us =>
    have hshape : tagsTail (u :: us) ++ 32 :: r =
        59 :: (Tag.write u ++ (tagsTail us ++ 32 :: r)) := by
      simp [tagsTail]
    rw [hshape]
    exact tagFn_valid ht (Or.inl rfl) _

theorem tagsListAux_valid :
    ∀ (ts : List Tag) (fuel : Nat) (acc : List Tag) (r : Bytes),
    (∀ t ∈ ts, validTag t = true) →
    (tagsTail ts ++ 32 :: r).length ≤ fuel →
    tagsListAux fuel (tagsTail ts ++ 32 :: r) acc = .ok (acc ++ ts) (32 :: r) := by
  intro ts
  induction ts with
  | nil =>
    intro fuel acc r _ hfuel
    simp only [tagsTail, List.nil_append] at hfuel ⊢
    cases fuel with
    | zero => simp at hfuel
    | succ f =>
      simp [tagsListAux, charP]
  | cons t ts ih =>
    intro fuel acc r hval hfuel
    have hshape : tagsTail (t :: ts) ++ 32 :: r =
        59 :: (Tag.write t ++ (tagsTail ts ++ 32 :: r)) := by
      simp [tagsTail]
    rw [hshape] at hfuel ⊢
    cases fuel with
    | zero => simp at hfuel
    | succ f =>
      have ht : validTag t = true := hval t (by simp)
      simp only [tagsListAux, charP, if_pos rfl, if_true,
        tagFn_at_boundary ht ts r]
      rw [ih f (acc ++ [t]) r (fun u hu => hval u (by simp [hu])) ?_]
      · simp
      · have := hfuel
        simp only [List.length_cons, List.length_append] at this ⊢
        omega

theorem optTags_at_cons {t : Tag} {ts : List Tag}
    (h : ∀ u ∈ t :: ts, validTag u = true) (r : Bytes) :
    optTags (tagsSection (t :: ts) ++ r) = .ok (some (t :: ts)) r := by
  have hshape : tagsSection (t :: ts) ++ r =
      64 :: (Tag.write t ++ (tagsTail ts ++ 32 :: r)) := by
    simp [tagsSection]
  rw [hshape]
  have ht : validTag t = true := h t (by simp)
  simp only [optTags, charP, if_pos rfl, if_true, tagsList,
    tagFn_at_boundary ht ts r]
  rw [tagsListAux_valid ts (tagsTail ts ++ 32 :: r).length [t] r
    (fun u hu => h u (by simp [hu])) le_rfl]
  simp [charP]

theorem optTags_absent {c : Nat} (hc : c ≠ 64) (r : Bytes) :
    optTags (c :: r) = .ok none (c :: r) := by
  simp [optTags, charP, hc]

theorem pfxFn_nick_only {n : Bytes} (hn : n ≠ [])
    (hnb : ∀ c ∈ n, isNickByte c = true) (r : Bytes) :
    pfxFn (n ++ 32 :: r) = .ok ⟨n, none, none⟩ (32 :: r) := by
  have htw : (n ++ 32 :: r).takeWhile isNickByte = n :=
    takeWhile_append_stop hnb (by decide) r
  simp only [pfxFn, htw, List.drop_left, List.head?_cons]
  rw [if_neg (by simpa [List.length_eq_zero] using hn),
    if_neg (by simp), if_neg (by simp)]

theorem pfxFn_nick_host {n h : Bytes} (hn : n ≠ [])
    (hnb : ∀ c ∈ n, isNickByte c = true) (hh : h ≠ [])
    (hhb : ∀ c ∈ h, isHostByte c = true) (r : Bytes) :
    pfxFn (n ++ 64 :: (h ++ 32 :: r)) = .ok ⟨n, none, some h⟩ (32 :: r) := by
  have htw : (n ++ 64 :: (h ++ 32 :: r)).takeWhile isNickByte = n :=
    takeWhile_append_stop hnb (by decide) _
  have hhw : (h ++ 32 :: r).takeWhile isHostByte = h :=
    takeWhile_append_stop hhb (by decide) r
  simp only [pfxFn, htw, List.drop_left, List.head?_cons, List.drop_succ_cons,
    List.drop_zero, hhw]
  rw [if_neg (by simpa [List.length_eq_zero] using hn), if_neg (by simp),
    if_pos (by simp), if_pos (by simpa [List.length_eq_zero] using hh)]

theorem pfxFn_full {n u h : Bytes} (hn : n ≠ [])
    (hnb : ∀ c ∈ n, isNickByte c = true) (hu : u ≠ [])
    (hub : ∀ c ∈ u, isUserByte c = true) (hh : h ≠ [])
    (hhb : ∀ c ∈ h, isHostByte c = true) (r : Bytes) :
    pfxFn (n ++ 33 :: (u ++ 64 :: (h ++ 32 :: r))) =
      .ok ⟨n, some u, some h⟩ (32 :: r) := by
  have htw : (n ++ 33 :: (u ++ 64 :: (h ++ 32 :: r))).takeWhile isNickByte = n :=
    takeWhile_append_stop hnb (by decide) _
  have huw : (u ++ 64 :: (h ++ 32 :: r)).takeWhile isUserByte = u :=
    takeWhile_append_stop hub (by decide) _
  have hhw : (h ++ 32 :: r).takeWhile isHostByte = h :=
    takeWhile_append_stop hhb (by decide) r
  have hd64 : (33 :: (u ++ 64 :: (h ++ 32 :: r))).drop (1 + u.length) =
      64 :: (h ++ 32 :: r) := by
    rw [Nat.add_comm, List.drop_succ_cons, List.drop_left]
  have hd3 : (33 :: (u ++ 64 :: (h ++ 32 :: r))).drop (2 + u.length) =
      h ++ 32 :: r := by
    rw [show 2 + u.length = (1 + u.length) + 1 by omega, List.drop_succ_cons,
      Nat.add_comm, drop_cons_append]
  simp only [pfxFn, htw, List.drop_left, List.head?_cons, List.drop_succ_cons,
    List.drop_zero, huw, hd64, hd3, hhw]
  rw [if_neg (by simpa [List.length_eq_zero] using hn), if_pos (by simp),
    if_pos ⟨by simpa [List.length_eq_zero] using hu, by simp⟩,
    if_pos (by simpa [List.length_eq_zero] using hh)]

theorem optPfx_present {p : Pfx} (hp : validPfx p = true) {pb : Bytes}
    (hw : Pfx.write p = some pb) (r : Bytes) :
    optPfx (pb ++ 32 :: r) = .ok (some p) r := by
  obtain ⟨n, u, h⟩ := p
  simp only [validPfx, Bool.and_eq_true] at hp
  obtain ⟨⟨hnne, hnall⟩, hrest⟩ := hp
  have hn : n ≠ [] := by simpa using hnne
  have hnb : ∀ c ∈ n, isNickByte c = true := List.all_eq_true.mp hnall
  cases u with
  | none =>
    cases h with
    | none =>
      simp only [Pfx.write] at hw
      cases hw
      have hshape : (58 :: n) ++ 32 :: r = 58 :: (n ++ 32 :: r) := rfl
      rw [hshape]
      simp only [optPfx, charP, if_pos rfl, if_true,
        pfxFn_nick_only hn hnb r]
    | some hb =>
      simp only [Pfx.write] at hw
      cases hw
      simp only [Bool.and_eq_true] at hrest
      obtain ⟨hhne, hhall⟩ := hrest
      have hshape : (58 :: n ++ 64 :: hb) ++ 32 :: r =
          58 :: (n ++ 64 :: (hb ++ 32 :: r)) := by simp
      rw [hshape]
      simp only [optPfx, charP, if_pos rfl, if_true,
        pfxFn_nick_host hn hnb (by simpa using hhne)
          (List.all_eq_true.mp hhall) r]
  | some ub =>
    cases h with
    | none => simp at hrest
    | some hb =>
      simp only [Pfx.write] at hw
      cases hw
      simp only [Bool.and_eq_true] at hrest
      obtain ⟨⟨hune, huall⟩, hhne, hhall⟩ := hrest
      have hshape : (58 :: n ++ 33 :: ub ++ 64 :: hb) ++ 32 :: r =
          58 :: (n ++ 33 :: (ub ++ 64 :: (hb ++ 32 :: r))) := by simp
      rw [hshape]
      simp only [optPfx, charP, if_pos rfl, if_true,
        pfxFn_full hn hnb (by simpa using hune) (List.all_eq_true.mp huall)
          (by simpa using hhne) (List.all_eq_true.mp hhall) r]

theorem optPfx_absent {c : Nat} (hc : c ≠ 58) (r : Bytes) :
    optPfx (c :: r) = .ok none (c :: r) := by
  simp [optPfx, charP, hc]

theorem digit_not_cmdLetter {x : Nat} (h : isDigit x = true) :
    isCmdLetter x = false := by
  simp only [isDigit, decide_eq_true_eq] at h
  simp only [isCmdLetter, isLetter, Bool.or_eq_false_iff,
    decide_eq_false_iff_not]
  omega

theorem commandFn_valid {c : Bytes} (hc : validCmdToken c = true) {d : Nat}
    (hd : d = 32 ∨ d = 13) (r : Bytes) :
    commandFn (c ++ d :: r) = .ok c (d :: r) := by
  have hdlet : isCmdLetter d = false := by rcases hd with rfl | rfl <;> decide
  rw [validCmdToken, Bool.or_eq_true] at hc
  rcases hc with hlet | hdig
  · rw [Bool.and_eq_true] at hlet
    obtain ⟨hne, hall⟩ := hlet
    have hcall : ∀ x ∈ c, isCmdLetter x = true := List.all_eq_true.mp hall
    have htw : (c ++ d :: r).takeWhile isCmdLetter = c :=
      takeWhile_append_stop hcall hdlet r
    have hcne : c ≠ [] := by simpa using hne
    simp only [commandFn, htw, List.drop_left]
    rw [if_pos (by simpa [List.length_eq_zero] using hcne)]
  · rw [Bool.and_eq_true] at hdig
    obtain ⟨hlen, hall⟩ := hdig
    have hlen3 : c.length = 3 := by simpa using hlen
    obtain ⟨a, b, e, rfl⟩ : ∃ a b e, c = [a, b, e] := by
      cases c with
      | nil => simp at hlen3
      | cons a c1 =>
        cases c1 with
        | nil => simp at hlen3
        | cons b c2 =>
          cases c2 with
          | nil => simp at hlen3
          | cons e c3 =>
            cases c3 with
            | nil => exact ⟨a, b, e, rfl⟩
            | cons x c4 => simp at hlen3
    have ha : isDigit a = true := List.all_eq_true.mp hall a (by simp)
    have hb : isDigit b = true := List.all_eq_true.mp hall b (by simp)
    have he : isDigit e = true := List.all_eq_true.mp hall e (by simp)
    have hshape : ([a, b, e] : Bytes) ++ d :: r = a :: b :: e :: d :: r := rfl
    rw [hshape]
    have hrun : (a :: b :: e :: d :: r).takeWhile isCmdLetter = [] := by
      simp [List.takeWhile_cons, digit_not_cmdLetter ha]
    have hfind : find3Digits (a :: b :: e :: d :: r) = some 0 := by
      rw [find3Digits]
      rw [if_pos]
      refine ⟨ha, ?_, by simp⟩
      simp [ha, hb, he]
    simp only [commandFn, hrun, hfind]
    rw [if_neg (by simp)]
    simp

/-- the command token in the serialized line is always followed by a space
(an argument or the trailing marker) or by CR (the terminator). -/
theorem commandFn_before_args {C : Bytes} (hC : validCmdToken C = true)
    (A : List Bytes) (tail : Bytes)
    (htail : (∃ u, tail = 32 :: 58 :: u) ∨ (∃ u, tail = 13 :: 10 :: u)) :
    commandFn (C ++ (argsBytes A ++ tail)) = .ok C (argsBytes A ++ tail) := by
  cases A with
  | nil =>
    rcases htail with ⟨u, rfl⟩ | ⟨u, rfl⟩ <;>
      simpa using commandFn_valid hC (by simp) _
  | cons a as_ =>
    have hshape : argsBytes (a :: as_) ++ tail =
        32 :: (a ++ (argsBytes as_ ++ tail)) := by
      simp [argsBytes]
    rw [hshape]
    exact commandFn_valid hC (Or.inl rfl) _

theorem peekStop_trailing (u : Bytes) :
    peekStop (32 :: 58 :: u) = .ok () (32 :: 58 :: u) := by
  have h : tagP [32, 58] (32 :: 58 :: u) = .ok () u := by
    simp [tagP, Nat.le_add_left]
  simp [peekStop, h]

theorem peekStop_crlf (u : Bytes) :
    peekStop (13 :: 10 :: u) = .ok () (13 :: 10 :: u) := by
  have h1 : tagP [32, 58] (13 :: 10 :: u) = .err := by
    simp [tagP, Nat.le_add_left]
  have h2 : tagP [13, 10] (13 :: 10 :: u) = .ok () u := by
    simp [tagP, Nat.le_add_left]
  simp [peekStop, h1, h2]

theorem peekStop_arg {x : Nat} (hx : x ≠ 58) (w : Bytes) :
    peekStop (32 :: x :: w) = .err := by
  have h1 : tagP [32, 58] (32 :: x :: w) = .err := by
    simp [tagP, Nat.le_add_left, hx]
  have h2 : tagP [13, 10] (32 :: x :: w) = .err := by
    simp [tagP, Nat.le_add_left]
  simp [peekStop, h1, h2]

theorem argsLoopAux_valid :
    ∀ (args : List Bytes) (fuel : Nat) (acc : List Bytes) (tail : Bytes),
    (∀ a ∈ args, validArg a = true) →
    ((∃ u, tail = 32 :: 58 :: u) ∨ (∃ u, tail = 13 :: 10 :: u)) →
    (argsBytes args ++ tail).length ≤ fuel →
    argsLoopAux fuel (argsBytes args ++ tail) acc = .ok (acc ++ args) tail := by
  intro args
  induction args with
  | nil =>
    intro fuel acc tail _ htail hfuel
    simp only [argsBytes, List.nil_append] at hfuel ⊢
    rcases htail with ⟨u, rfl⟩ | ⟨u, rfl⟩
    · cases fuel with
      | zero => simp at hfuel
      | succ f => simp [argsLoopAux, peekStop_trailing]
    · cases fuel with
      | zero => simp at hfuel
      | succ f => simp [argsLoopAux, peekStop_crlf]
  | cons a as_ ih =>
    intro fuel acc tail hval htail hfuel
    have hva : validArg a = true := hval a (by simp)
    have hshape : argsBytes (a :: as_) ++ tail =
        32 :: (a ++ (argsBytes as_ ++ tail)) := by
      simp [argsBytes]
    rw [hshape] at hfuel ⊢
    cases fuel with
    | zero => simp at hfuel
    | succ f =>
      -- the continuation after this argument starts with a stop byte ≠ 58
      obtain ⟨y, w, hyw, hy58, hystop⟩ :
          ∃ y w, argsBytes as_ ++ tail = y :: w ∧ y ≠ 58 ∧
            notArgStop y = false := by
        cases as_ with
        | nil =>
          rcases htail with ⟨u, rfl⟩ | ⟨u, rfl⟩
          · exact ⟨32, 58 :: u, by simp [argsBytes], by decide, by decide⟩
          · exact ⟨13, 10 :: u, by simp [argsBytes], by decide, by decide⟩
        | cons b bs =>
          exact ⟨32, b ++ (argsBytes bs ++ tail), by simp [argsBytes],
            by decide, by decide⟩
      simp only [validArg, Bool.and_eq_true, decide_eq_true_eq] at hva
      obtain ⟨hastop, hahead⟩ := hva
      have hpk : peekStop (32 :: (a ++ (argsBytes as_ ++ tail))) = .err := by
        cases a with
        | nil =>
          rw [List.nil_append, hyw]
          exact peekStop_arg hy58 w
        | cons c a1 =>
          have hc58 : c ≠ 58 := by
            intro hc
            rw [hc] at hahead
            simp at hahead
          exact peekStop_arg hc58 _
      have htts : takeTillStop (a ++ (argsBytes as_ ++ tail)) =
          .ok a (argsBytes as_ ++ tail) := by
        have htw : (a ++ (argsBytes as_ ++ tail)).takeWhile notArgStop = a := by
          rw [hyw]
          exact takeWhile_append_stop (List.all_eq_true.mp hastop) hystop w
        simp only [takeTillStop, htw]
        rw [if_neg, List.drop_left]
        rw [hyw]
        simp only [List.length_append, List.length_cons]
        omega
      simp only [argsLoopAux, hpk, charP, if_pos rfl, if_true, htts]
      rw [ih f (acc ++ [a]) tail (fun x hx => hval x (by simp [hx])) htail ?_]
      · simp
      · simp only [List.length_cons, List.length_append] at hfuel ⊢
        omega

theorem argsLoop_valid (args : List Bytes) (tail : Bytes)
    (hval : ∀ a ∈ args, validArg a = true)
    (htail : (∃ u, tail = 32 :: 58 :: u) ∨ (∃ u, tail = 13 :: 10 :: u)) :
    argsLoop (argsBytes args ++ tail) = .ok args tail := by
  have := argsLoopAux_valid args ((argsBytes args ++ tail).length + 1) [] tail
    hval htail (by omega)
  simpa [argsLoop] using this

theorem findCRLF_at {v : Bytes} (hv : ∀ c ∈ v, c ≠ 13 ∧ c ≠ 10) (w : Bytes) :
    findCRLF (v ++ 13 :: 10 :: w) = some v.length := by
  induction v with
  | nil => simp [findCRLF]
  | cons c cs ih =>
    have hc := hv c (by simp)
    simp only [List.cons_append, findCRLF, List.append_eq]
    rw [if_neg (fun hcon => hc.1 hcon.1)]
    rw [ih (fun x hx => hv x (by simp [hx]))]
    simp [List.length_cons]

theorem optRest_some {rest : Bytes} (hr : validRest rest = true) (r : Bytes) :
    optRest (32 :: 58 :: (rest ++ 13 :: 10 :: r)) =
      .ok (some rest) (13 :: 10 :: r) := by
  have ht : tagP [32, 58] (32 :: 58 :: (rest ++ 13 :: 10 :: r)) =
      .ok () (rest ++ 13 :: 10 :: r) := by
    simp [tagP, Nat.le_add_left]
  have hv : ∀ c ∈ rest, c ≠ 13 ∧ c ≠ 10 := by
    intro c hc
    have := List.all_eq_true.mp hr c hc
    simpa using this
  simp only [optRest, ht, takeUntilCRLF, findCRLF_at hv r, List.take_left,
    List.drop_left]

theorem optRest_none (r : Bytes) :
    optRest (13 :: 10 :: r) = .ok none (13 :: 10 :: r) := by
  have ht : tagP [32, 58] (13 :: 10 :: r) = .err := by
    simp [tagP, Nat.le_add_left]
  simp [optRest, ht]

theorem tagP_crlf (r : Bytes) : tagP [13, 10] (13 :: 10 :: r) = .ok () r := by
  simp [tagP, Nat.le_add_left]

/-- converting a grammar-valid `Command` to raw form and mapping it back is
the identity: the catch-all clause of `validCommand` rules out the one
shadowing shape. -/
theorem fromRaw_toRaw {c : Command} (hc : validCommand c = true) :
    commandFromRaw (commandToRaw c) = c := by
  cases c with
  | privmsg ch msg => simp [commandToRaw, commandFromRaw]
  | unknown cn args rest =>
    rcases args with _ | ⟨a, _ | ⟨b, as_⟩⟩ <;> rcases rest with _ | r' <;>
      simp [commandToRaw, commandFromRaw]
    -- the [a], some r' shape: validCommand forbids cn = PRIVMSG here
    intro hcn
    simp [validCommand, hcn] at hc

/-- the raw projection of a grammar-valid `Command` has a valid token, valid
arguments and a valid trailing parameter. -/
theorem toRaw_valid {c : Command} (hc : validCommand c = true) :
    validCmdToken (commandToRaw c).command = true ∧
    (∀ a ∈ (commandToRaw c).args, validArg a = true) ∧
    (∀ rr, (commandToRaw c).rest = some rr → validRest rr = true) := by
  cases c with
  | privmsg ch msg =>
    simp only [validCommand, Bool.and_eq_true] at hc
    refine ⟨?_, ?_, ?_⟩
    · show validCmdToken pmBytes = true
      decide
    · intro a ha
      simp only [commandToRaw, List.mem_singleton] at ha
      rw [ha]
      exact hc.1
    · intro rr hrr
      simp only [commandToRaw, Option.some_inj] at hrr
      rw [← hrr]
      exact hc.2
  | unknown cn args rest =>
    simp only [validCommand, Bool.and_eq_true] at hc
    obtain ⟨⟨⟨htok, hargs⟩, hrest⟩, -⟩ := hc
    refine ⟨htok, List.all_eq_true.mp hargs, ?_⟩
    intro rr hrr
    simp only [commandToRaw] at hrr
    rw [hrr] at hrest
    exact hrest

/-- composing the six grammar stages of `wireParse`. -/
theorem wireParse_chain {i i1 i2 i3 i4 i5 i6 : Bytes} {ots : Option (List Tag)}
    {op : Option Pfx} {C : Bytes} {A : List Bytes} {R : Option Bytes}
    (h1 : optTags i = .ok ots i1) (h2 : optPfx i1 = .ok op i2)
    (h3 : commandFn i2 = .ok C i3) (h4 : argsLoop i3 = .ok A i4)
    (h5 : optRest i4 = .ok R i5) (h6 : tagP [13, 10] i5 = .ok () i6) :
    wireParse i = .ok ⟨ots.getD [], op, ⟨C, A, R⟩⟩ i6 := by
  simp only [wireParse, h1, h2, h3, h4, h5, h6]

theorem cmdToken_head {C : Bytes} (h : validCmdToken C = true) :
    ∃ c0 C', C = c0 :: C' ∧ c0 ≠ 64 ∧ c0 ≠ 58 := by
  rw [validCmdToken, Bool.or_eq_true] at h
  cases C with
  | nil =>
    rcases h with h | h <;> rw [Bool.and_eq_true] at h <;> simp at h
  | cons c0 C' =>
    refine ⟨c0, C', rfl, ?_, ?_⟩ <;> rcases h with h | h <;>
      rw [Bool.and_eq_true] at h <;>
      have hc := List.all_eq_true.mp h.2 c0 (List.mem_cons_self c0 C') <;>
      intro hceq <;> subst hceq <;> revert hc <;> decide

theorem pfx_write_cons {p : Pfx} {pb : Bytes} (h : Pfx.write p = some pb) :
    ∃ t, pb = 58 :: t := by
  obtain ⟨n, u, hh⟩ := p
  cases u with
  | none =>
    cases hh with
    | none =>
      simp only [Pfx.write, Option.some_inj] at h
      exact ⟨n, h.symm⟩
    | some hb =>
      simp only [Pfx.write, Option.some_inj] at h
      exact ⟨_, h.symm⟩
  | some ub =>
    cases hh with
    | none => simp [Pfx.write] at h
    | some hb =>
      simp only [Pfx.write, Option.some_inj] at h
      exact ⟨_, h.symm⟩

theorem validPfx_invariant {p : Pfx} (h : validPfx p = true) :
    p.user.isSome = true → p.host.isSome = true := by
  obtain ⟨n, u, hh⟩ := p
  cases u <;> cases hh <;> simp [validPfx] at h ⊢

/-! ## Claim theorems -/

/-- C1: the claim reads: every byte sequence that is a proper prefix of some
successfully-parsed line is itself classified `Incomplete` (or `Success`),
never `Invalid`.  The code violates it: `"0"` is a proper prefix of the valid
line `"000\r\n"`, yet `Message::parse` classifies `"0"` as `Invalid`, because
the `[0-9]{3}` command matcher reports a plain failure when fewer than three
digits have arrived instead of "could extend". -/
theorem c1_incomplete_misclassified :
    Message.parse (str "0") = .err ∧
    Message.parse (str "0" ++ str "00" ++ [13, 10]) =
      .ok ⟨[], none, .unknown (str "000") [] none⟩ [] := by decide

/-- C4: mapping a raw command/argument/trailing triple through the semantic
`Command` layer and back is the identity; the modeled variant is produced
exactly for `(PRIVMSG, one argument, trailing present)` and the catch-all
variant, reproducing the raw fields unchanged, in every other case. -/
theorem c4_catchall_fidelity :
    ∀ r : Raw, commandToRaw (commandFromRaw r) = r ∧
      (¬(r.command = pmBytes ∧ r.args.length = 1 ∧ r.rest ≠ none) →
        commandFromRaw r = .unknown r.command r.args r.rest) ∧
      ((r.command = pmBytes ∧ r.args.length = 1 ∧ r.rest ≠ none) →
        ∃ a msg, r.args = [a] ∧ r.rest = some msg ∧
          commandFromRaw r = .privmsg a msg) := by
  rintro ⟨c, args, rest⟩
  rcases args with _ | ⟨a, _ | ⟨b, as_⟩⟩ <;> rcases rest with _ | r' <;>
    simp [commandFromRaw, commandToRaw]
  by_cases hc : c = pmBytes
  · subst hc; simp
  · simp [hc]

theorem c4_catchall_fidelity_witness :
    commandToRaw (commandFromRaw ⟨str "CAP", [str "REQ"], some (str "sasl")⟩) =
      ⟨str "CAP", [str "REQ"], some (str "sasl")⟩ ∧
    commandFromRaw ⟨str "CAP", [str "REQ"], some (str "sasl")⟩ =
      .unknown (str "CAP") [str "REQ"] (some (str "sasl")) ∧
    (∃ a msg, ([str "#c"] : List Bytes) = [a] ∧
      (some (str "hi") : Option Bytes) = some msg ∧
      commandFromRaw ⟨pmBytes, [str "#c"], some (str "hi")⟩ = .privmsg a msg) :=
  ⟨(c4_catchall_fidelity ⟨str "CAP", [str "REQ"], some (str "sasl")⟩).1,
   (c4_catchall_fidelity ⟨str "CAP", [str "REQ"], some (str "sasl")⟩).2.1
     (by decide),
   (c4_catchall_fidelity ⟨pmBytes, [str "#c"], some (str "hi")⟩).2.2
     (by decide)⟩

/-- C5 counterexample: the claim quantifies over every *constructible* value,
but a `Prefix` with a user and no host is constructible (public fields), and
on it `Prefix::write_to` hits `unimplemented!()` — the write aborts because
of the data itself, with a perfectly good sink. -/
theorem c5_write_cex :
    Pfx.write ⟨str "a", some (str "u"), none⟩ = none ∧
    Message.write
      ⟨[], some ⟨str "a", some (str "u"), none⟩, .unknown (str "X") [] none⟩ =
      none := by decide

/-- C5 amended: for every `Prefix` satisfying the §3 invariant (user present
only with host present), and every `Message` whose prefix satisfies it,
serialization to an always-succeeding sink succeeds — it never fails or
aborts because of the data. -/
theorem c5_write_total :
    (∀ p : Pfx, (p.user.isSome = true → p.host.isSome = true) →
      (Pfx.write p).isSome = true) ∧
    (∀ m : Message,
      (∀ p, m.pfx = some p → p.user.isSome = true → p.host.isSome = true) →
      (Message.write m).isSome = true) := by
  refine ⟨pfx_write_isSome, ?_⟩
  rintro ⟨tags, pfx, cmd⟩ hm
  cases pfx with
  | none => simp [Message.write]
  | some p =>
    have hw := pfx_write_isSome p (hm p rfl)
    rcases Option.isSome_iff_exists.mp hw with ⟨pb, hpb⟩
    simp [Message.write, hpb]

theorem c5_write_total_witness :
    (Pfx.write ⟨str "n", none, some (str "h")⟩).isSome = true ∧
    (Message.write ⟨[], some ⟨str "n", some (str "u"), some (str "h")⟩,
      .privmsg (str "#c") (str "m")⟩).isSome = true :=
  ⟨c5_write_total.1 ⟨str "n", none, some (str "h")⟩ (by decide),
   c5_write_total.2 ⟨[], some ⟨str "n", some (str "u"), some (str "h")⟩,
     .privmsg (str "#c") (str "m")⟩ (fun p hp => by cases hp; decide)⟩

/-- C6: a successful parse never yields a prefix with a user but no host:
in the prefix matcher the user capture is only ever set in the branch that
also sets the host capture. -/
theorem c6_no_user_without_host (i : Bytes) (m : Message) (r : Bytes)
    (h : Message.parse i = .ok m r) (p : Pfx) (hp : m.pfx = some p)
    (hu : p.user.isSome = true) : p.host.isSome = true :=
  (Message.parse_ok_facts h).2.2 p hp hu

theorem c6_no_user_without_host_witness :
    (Pfx.mk (str "n") (some (str "u")) (some (str "h"))).host.isSome = true :=
  c6_no_user_without_host (str ":n!u@h P" ++ [13, 10])
    ⟨[], some ⟨str "n", some (str "u"), some (str "h")⟩,
      .unknown (str "P") [] none⟩ []
    (by decide) ⟨str "n", some (str "u"), some (str "h")⟩ rfl (by decide)

/-- C7: the claim reads: the command token consists of the bytes immediately
following the tag/prefix sections, and inputs not beginning a valid token
there do not parse (no bytes are skipped).  The code violates it: in
`"!!123\r\n"` the bytes at the command position begin with `!`, yet the parse
succeeds with command `123`, silently skipping the two `!` bytes — the
un-anchored `[0-9]{3}` alternative of the command regex matches anywhere. -/
theorem c7_command_position :
    Message.parse (str "!!123" ++ [13, 10]) =
      .ok ⟨[], none, .unknown (str "123") [] none⟩ [] := by decide

/-- C8: the claim reads: a malformed line (here `"!\n"`, which the tokenizer
rejects) terminated by LF and followed by the valid line `"123\r\n"` yields
one `InvalidLine` for the malformed bytes and then one `ValidMessage`.  The
code violates it: on the combined buffer the un-anchored digit alternative of
the command regex skips over the malformed line, the parse *succeeds*
consuming the whole buffer, and decode emits a single `ValidMessage` —
the malformed line is merged into the valid parse and never reported. -/
theorem c8_resync :
    Message.parse (str "!" ++ [10]) = .err ∧
    Message.parse (str "123" ++ [13, 10]) =
      .ok ⟨[], none, .unknown (str "123") [] none⟩ [] ∧
    decode (str "!" ++ 10 :: str "123" ++ [13, 10]) =
      (some (.message ⟨[], none, .unknown (str "123") [] none⟩), []) := by decide

/-- C9: whenever decode returns a `ValidMessage`, exactly the consumed bytes
(buffer length minus remaining length) are removed from the buffer front,
leaving the parser leftover as the new buffer, and the emitted owned message
is content-equal to the parsed view message; whenever decode emits no event
(need more input), the buffer is unchanged. -/
theorem c9_decode_effect :
    (∀ src m left, Message.parse src = .ok m left →
      decode src = (some (.message m), left) ∧ Message.into_owned m = m) ∧
    (∀ src : Bytes, (decode src).1 = none → (decode src).2 = src) := by
  constructor
  · intro src m left h
    have hsuf := (Message.parse_ok_facts h).1
    refine ⟨?_, into_owned_id m⟩
    simp only [decode, h, into_owned_id m]
    rw [eq_drop_of_suffix hsuf]
  · intro src h
    cases hp : Message.parse src with
    | ok m left => simp [decode, hp] at h
    | incomplete => simp [decode, hp]
    | err =>
      cases hf : findLF src with
      | some p => simp [decode, hp, hf] at h
      | none => simp [decode, hp, hf]

theorem c9_decode_effect_witness :
    decode (str "PING" ++ 13 :: 10 :: str "rest") =
      (some (.message ⟨[], none, .unknown (str "PING") [] none⟩), str "rest") ∧
    (decode (str "PI")).2 = str "PI" :=
  ⟨(c9_decode_effect.1 (str "PING" ++ 13 :: 10 :: str "rest")
      ⟨[], none, .unknown (str "PING") [] none⟩ (str "rest") (by decide)).1,
   c9_decode_effect.2 (str "PI") (by decide)⟩

/-- C10: a present-but-empty tag value is distinct from an absent one, and
both the tag matcher and `Tag::write_to` preserve the distinction, so it
survives a full parse/serialize round trip. -/
theorem c10_tag_empty_value :
    tagFn (str "key=") = .ok ⟨str "key", some []⟩ [] ∧
    tagFn (str "key") = .ok ⟨str "key", none⟩ [] ∧
    Tag.write ⟨str "key", some []⟩ = str "key=" ∧
    Tag.write ⟨str "key", none⟩ = str "key" ∧
    tagFn (Tag.write ⟨str "key", some []⟩) = .ok ⟨str "key", some []⟩ [] ∧
    tagFn (Tag.write ⟨str "key", none⟩) = .ok ⟨str "key", none⟩ [] ∧
    (Tag.mk (str "key") (some []) ≠ Tag.mk (str "key") none) := by decide

/-- C2 counterexample: the claim reads: a valid line split anywhere and fed
incrementally emits nothing before the final call.  The code violates it:
`":a\n123!u@h C\r\n"` is one valid line (LF is a legal nickname byte), but
after feeding only `":a\n123!"` — a proper prefix — the tokenizer classifies
the buffer `Invalid` (the digit alternative finds `123`, then the argument
scanner fails on `!`), an LF is present, and decode emits an `InvalidLine`
event, so the split run and the whole-line run produce different events. -/
theorem c2_split_equivalence_cex :
    Message.parse (str ":a" ++ 10 :: str "123!u@h C" ++ [13, 10]) =
      .ok ⟨[], some ⟨str "a" ++ 10 :: str "123", some (str "u"), some (str "h")⟩,
           .unknown (str "C") [] none⟩ [] ∧
    decode (str ":a" ++ 10 :: str "123!") =
      (some (.invalid (str ":a" ++ [10])), str "123!") := by decide

/-- C2 amended: for a valid line whose only LF byte is its final terminator
byte, split-buffer feeding is equivalent to whole-line feeding: decoding any
proper prefix emits no event and leaves the buffer unchanged, and decoding
the whole line emits exactly the one `ValidMessage`. -/
theorem c2_split_equivalence (L : Bytes) (m : Message)
    (hparse : Message.parse L = .ok m [])
    (hLF : ∃ body, L = body ++ [10] ∧ (10 : Nat) ∉ body) :
    (∀ b s, L = b ++ s → s ≠ [] → decode b = (none, b)) ∧
      decode L = (some (.message m), []) := by
  obtain ⟨body, hbody, hmem⟩ := hLF
  constructor
  · intro b s hbs hs
    have h10 : (10 : Nat) ∉ b := proper_prefix_no_lf hbody hmem hbs hs
    cases hpb : Message.parse b with
    | ok m' left' => exact absurd (Message.parse_ok_facts hpb).2.1 h10
    | incomplete => simp [decode, hpb]
    | err => simp [decode, hpb, findLF_eq_none h10]
  · simp [decode, hparse, into_owned_id m]

/-- C3 counterexample: the claim quantifies over every constructible Message
value, but a catch-all command `Unknown(PRIVMSG, [#c], Some m)` — whose
fields all satisfy the data-model character constraints — serializes to the
same bytes as the modeled variant, and parsing those bytes yields the
`Privmsg` variant, which is not equal to the original value. -/
theorem c3_roundtrip_cex :
    Message.write ⟨[], none, .unknown pmBytes [str "#c"] (some (str "m"))⟩ =
      some (str "PRIVMSG #c :m" ++ [13, 10]) ∧
    Message.parse (str "PRIVMSG #c :m" ++ [13, 10]) =
      .ok ⟨[], none, .privmsg (str "#c") (str "m")⟩ [] ∧
    Message.mk [] none (.privmsg (str "#c") (str "m")) ≠
      ⟨[], none, .unknown pmBytes [str "#c"] (some (str "m"))⟩ := by decide

/-- C3 amended: for every `Message` whose fields satisfy the wire-grammar
character classes (`Message.wellFormed`: valid tag keys/values, valid prefix
fields with the user→host invariant, a letters-or-three-digits command token,
arguments free of space/CR/LF not starting with `:`, a CR/LF-free trailing
parameter) and whose command, if the catch-all variant, does not have the
modeled PRIVMSG shape, serializing and re-parsing yields `Success` with
exactly the original message and no remaining bytes. -/
theorem c3_roundtrip (m : Message) (h : m.wellFormed = true) :
    ∃ bs, Message.write m = some bs ∧ Message.parse bs = .ok m [] := by
  obtain ⟨tags, pfx, cmd⟩ := m
  simp only [Message.wellFormed, Bool.and_eq_true] at h
  obtain ⟨⟨htags, hpfx⟩, hcmd⟩ := h
  have htagsv : ∀ t ∈ tags, validTag t = true := List.all_eq_true.mp htags
  obtain ⟨hCtok0, hAv0, hRv0⟩ := toRaw_valid hcmd
  rcases hcr : commandToRaw cmd with ⟨C, A, R⟩
  rw [hcr] at hCtok0 hAv0 hRv0
  have hCtok : validCmdToken C = true := hCtok0
  have hAv : ∀ a ∈ A, validArg a = true := hAv0
  have hRv : ∀ rr, R = some rr → validRest rr = true := hRv0
  obtain ⟨tail, hraww, htail, h5⟩ :
      ∃ tail, Raw.write ⟨C, A, R⟩ ++ [13, 10] = C ++ (argsBytes A ++ tail) ∧
        ((∃ u, tail = 32 :: 58 :: u) ∨ (∃ u, tail = 13 :: 10 :: u)) ∧
        optRest tail = .ok R [13, 10] := by
    cases R with
    | none =>
      refine ⟨[13, 10], ?_, Or.inr ⟨[], rfl⟩, optRest_none []⟩
      simp [Raw.write]
    | some rr =>
      refine ⟨32 :: 58 :: (rr ++ [13, 10]), ?_, Or.inl ⟨_, rfl⟩,
        optRest_some (hRv rr rfl) []⟩
      simp [Raw.write]
  have h3 : commandFn (C ++ (argsBytes A ++ tail)) =
      .ok C (argsBytes A ++ tail) := commandFn_before_args hCtok A tail htail
  have h4 : argsLoop (argsBytes A ++ tail) = .ok A tail :=
    argsLoop_valid A tail hAv htail
  have h6 : tagP [13, 10] ([13, 10] : Bytes) = .ok () [] := tagP_crlf []
  obtain ⟨c0, C', hC0, hc64, hc58⟩ := cmdToken_head hCtok
  have hcmdeq : commandFromRaw ⟨C, A, R⟩ = cmd := hcr ▸ fromRaw_toRaw hcmd
  cases pfx with
  | none =>
    refine ⟨tagsSection tags ++ Raw.write ⟨C, A, R⟩ ++ [13, 10], ?_, ?_⟩
    · simp [Message.write, hcr]
    · have h2 : optPfx (C ++ (argsBytes A ++ tail)) =
          .ok none (C ++ (argsBytes A ++ tail)) := by
        rw [hC0, List.cons_append]
        exact optPfx_absent hc58 _
      have hstep : wireParse (tagsSection tags ++ (C ++ (argsBytes A ++ tail))) =
          .ok ⟨tags, none, ⟨C, A, R⟩⟩ [] := by
        cases tags with
        | nil =>
          have h1 : optTags (C ++ (argsBytes A ++ tail)) =
              .ok none (C ++ (argsBytes A ++ tail)) := by
            rw [hC0, List.cons_append]
            exact optTags_absent hc64 _
          simpa using wireParse_chain h1 h2 h3 h4 h5 h6
        | cons t ts =>
          have h1 := optTags_at_cons htagsv (C ++ (argsBytes A ++ tail))
          simpa using wireParse_chain h1 h2 h3 h4 h5 h6
      have hshape : tagsSection tags ++ Raw.write ⟨C, A, R⟩ ++ [13, 10] =
          tagsSection tags ++ (C ++ (argsBytes A ++ tail)) := by
        rw [← hraww]; simp
      rw [hshape]
      simp only [Message.parse, hstep, hcmdeq]
  | some p =>
    have hpv : validPfx p = true := by simpa using hpfx
    obtain ⟨pb, hwp⟩ := Option.isSome_iff_exists.mp
      (pfx_write_isSome p (validPfx_invariant hpv))
    refine ⟨tagsSection tags ++ pb ++ 32 :: Raw.write ⟨C, A, R⟩ ++ [13, 10],
      ?_, ?_⟩
    · simp [Message.write, hcr, hwp]
    · have h2 := optPfx_present hpv hwp (C ++ (argsBytes A ++ tail))
      obtain ⟨pb', hpb'⟩ := pfx_write_cons hwp
      have hstep : wireParse (tagsSection tags ++
          (pb ++ 32 :: (C ++ (argsBytes A ++ tail)))) =
          .ok ⟨tags, some p, ⟨C, A, R⟩⟩ [] := by
        cases tags with
        | nil =>
          have h1 : optTags (pb ++ 32 :: (C ++ (argsBytes A ++ tail))) =
              .ok none (pb ++ 32 :: (C ++ (argsBytes A ++ tail))) := by
            rw [hpb', List.cons_append]
            exact optTags_absent (by decide) _
          simpa using wireParse_chain h1 h2 h3 h4 h5 h6
        | cons t ts =>
          have h1 := optTags_at_cons htagsv
            (pb ++ 32 :: (C ++ (argsBytes A ++ tail)))
          simpa using wireParse_chain h1 h2 h3 h4 h5 h6
      have hshape : tagsSection tags ++ pb ++ 32 :: Raw.write ⟨C, A, R⟩ ++
          [13, 10] = tagsSection tags ++
          (pb ++ 32 :: (C ++ (argsBytes A ++ tail))) := by
        rw [← hraww]; simp
      rw [hshape]
      simp only [Message.parse, hstep, hcmdeq]

theorem c3_roundtrip_witness :
    ∃ bs, Message.write ⟨[⟨str "id", some (str "1")⟩],
        some ⟨str "nick", some (str "u"), some (str "host")⟩,
        .privmsg (str "#chan") (str "hello world")⟩ = some bs ∧
      Message.parse bs = .ok ⟨[⟨str "id", some (str "1")⟩],
        some ⟨str "nick", some (str "u"), some (str "host")⟩,
        .privmsg (str "#chan") (str "hello world")⟩ [] :=
  c3_roundtrip ⟨[⟨str "id", some (str "1")⟩],
    some ⟨str "nick", some (str "u"), some (str "host")⟩,
    .privmsg (str "#chan") (str "hello world")⟩ (by decide)

theorem c2_split_equivalence_witness :
    decode (str "PIN") = (none, str "PIN") ∧
    decode (str "PING" ++ [13, 10]) =
      (some (.message ⟨[], none, .unknown (str "PING") [] none⟩), []) :=
  ⟨(c2_split_equivalence (str "PING" ++ [13, 10])
      ⟨[], none, .unknown (str "PING") [] none⟩ (by decide)
      ⟨str "PING" ++ [13], by decide⟩).1 (str "PIN") (71 :: 13 :: [10])
      (by decide) (by decide),
   (c2_split_equivalence (str "PING" ++ [13, 10])
      ⟨[], none, .unknown (str "PING") [] none⟩ (by decide)
      ⟨str "PING" ++ [13], by decide⟩).2⟩

end TIrc
